import Mathlib

/-!
Verification of the Martingale betting-strategy simulator
(`martingale_simulation.py`).

The mutable object state of class `Martingale` is embedded as a record;
`reset` and the body of the `simulate` while-loop are translated directly.
The pseudorandom outcome of each round is abstracted as an outcome stream
`outs : Nat -> Bool` (round `n` is a win iff `outs n = true`), and the
underlying uniform draw `random.random()` as a draw stream of rationals,
linked by `trial`.
-/

/-- The state of one `Martingale` object: the four constructor
parameters (immutable in the source) and the four mutable fields. -/
structure Martingale where
  initial_balance : ℚ
  initial_bet : ℚ
  win_prob : ℚ
  table_limit : ℚ
  balance : ℚ
  current_bet : ℚ
  balance_history : List ℚ
  rounds_played : ℕ
deriving Repr, DecidableEq

/-- The method `reset`: restores the mutable fields from the parameters. -/
def Martingale.reset (m : Martingale) : Martingale :=
  { m with
    balance := m.initial_balance
    current_bet := m.initial_bet
    balance_history := [m.initial_balance]
    rounds_played := 0 }

/-- The constructor: stores the four parameters and calls `reset`
(the mutable fields do not exist before `reset` runs; they are given
placeholder values which `reset` overwrites). -/
def initMartingale (ib bet wp tl : ℚ) : Martingale :=
  Martingale.reset
    { initial_balance := ib
      initial_bet := bet
      win_prob := wp
      table_limit := tl
      balance := 0
      current_bet := 0
      balance_history := []
      rounds_played := 0 }

/-- The continuation guard of the `simulate` while-loop:
`self.balance >= self.current_bet and self.table_limit >= self.current_bet`. -/
def guardB (m : Martingale) : Bool :=
  decide (m.balance ≥ m.current_bet) && decide (m.table_limit ≥ m.current_bet)

/-- One execution of the loop body of `simulate`, given the round outcome
`win` (`random.random() <= self.win_prob`): stake the bet, resolve the
outcome, append the new balance, bump the round counter. -/
def step (m : Martingale) (win : Bool) : Martingale :=
  let staked := m.balance - m.current_bet
  if win then
    { m with
      balance := staked + 2 * m.current_bet
      current_bet := m.initial_bet
      balance_history := m.balance_history ++ [staked + 2 * m.current_bet]
      rounds_played := m.rounds_played + 1 }
  else
    { m with
      balance := staked
      current_bet := m.current_bet * 2
      balance_history := m.balance_history ++ [staked]
      rounds_played := m.rounds_played + 1 }

/-- The trace of the `simulate` loop: state after `n` guard checks, with
round `j` (when executed) using outcome `outs j`.  Once the guard fails
the state no longer changes, exactly as the loop exits. -/
def iter (m : Martingale) (outs : ℕ → Bool) : ℕ → Martingale
  | 0 => m
  | n + 1 =>
    let s := iter m outs n
    if guardB s then step s (outs n) else s

/-- Proposition that `simulate()` terminates on outcome stream `outs`. -/
def Halts (m : Martingale) (outs : ℕ → Bool) : Prop :=
  ∃ n, guardB (iter m outs n) = false

/-- The round at which the guard first fails. -/
def stopTime (m : Martingale) (outs : ℕ → Bool) (h : Halts m outs) : ℕ :=
  Nat.find h

/-- The state returned by `simulate()` (which returns `self` after the
loop exits). -/
def simResult (m : Martingale) (outs : ℕ → Bool) (h : Halts m outs) : Martingale :=
  iter m outs (stopTime m outs h)

/-- The trace of `simulate()` on a freshly constructed process
(`Martingale(ib, bet, wp, tl).simulate()`), round by round. -/
def traj (ib bet wp tl : ℚ) (outs : ℕ → Bool) : ℕ → Martingale :=
  iter (initMartingale ib bet wp tl) outs

/-- The documented data-model invariant: the history has one entry per
played round plus the initial snapshot, and starts at the initial balance. -/
def histInv (m : Martingale) : Prop :=
  m.balance_history.length = m.rounds_played + 1 ∧
    m.balance_history.head? = some m.initial_balance

/-- Number of consecutive losses in `outs` immediately before round `n`
(reset to `0` by a win, and `0` at the start). -/
def lossStreak (outs : ℕ → Bool) : ℕ → ℕ
  | 0 => 0
  | n + 1 => if outs n then 0 else lossStreak outs n + 1

/-- The trial generator, `random.random() <= self.win_prob`: given the
uniform draw `d`, the round is a win iff `d ≤ wp`. -/
def trial (wp d : ℚ) : Bool :=
  decide (d ≤ wp)

/-- The simulate trace driven by the stream of uniform draws, each round
resolved through `trial` as in the source. -/
def iterDraws (m : Martingale) (draws : ℕ → ℚ) : ℕ → Martingale :=
  iter m (fun j => trial m.win_prob (draws j))

/-- The driver `run_simulations`: builds `sim_count` processes with identical
parameters and runs `simulate()` on each, in order.  The outcome stream
of process `i` is `outsFam i`; `h` certifies each run terminates. -/
def run_simulations (ib bet wp tl : ℚ) (outsFam : ℕ → ℕ → Bool) (sim_count : ℕ)
    (h : ∀ i, Halts (initMartingale ib bet wp tl) (outsFam i)) : List Martingale :=
  (List.range sim_count).map fun i =>
    simResult (initMartingale ib bet wp tl) (outsFam i) (h i)

/-! ### Basic lemmas about the embedded operations -/

theorem guardB_eq_true_iff (m : Martingale) :
    guardB m = true ↔ m.balance ≥ m.current_bet ∧ m.table_limit ≥ m.current_bet := by
  simp [guardB]

theorem guardB_eq_false_iff (m : Martingale) :
    guardB m = false ↔ m.balance < m.current_bet ∨ m.table_limit < m.current_bet := by
  rw [← Bool.not_eq_true, guardB_eq_true_iff]
  push_neg
  constructor
  · intro h
    by_cases hb : m.balance < m.current_bet
    · exact Or.inl hb
    · exact Or.inr (h (not_lt.mp hb))
  · intro h hb
    rcases h with h | h
    · exact absurd hb (not_le.mpr h)
    · exact h

@[simp] theorem step_initial_balance (m : Martingale) (w : Bool) :
    (step m w).initial_balance = m.initial_balance := by cases w <;> rfl

@[simp] theorem step_initial_bet (m : Martingale) (w : Bool) :
    (step m w).initial_bet = m.initial_bet := by cases w <;> rfl

@[simp] theorem step_win_prob (m : Martingale) (w : Bool) :
    (step m w).win_prob = m.win_prob := by cases w <;> rfl

@[simp] theorem step_table_limit (m : Martingale) (w : Bool) :
    (step m w).table_limit = m.table_limit := by cases w <;> rfl

@[simp] theorem step_rounds_played (m : Martingale) (w : Bool) :
    (step m w).rounds_played = m.rounds_played + 1 := by cases w <;> rfl

theorem step_balance_history (m : Martingale) (w : Bool) :
    (step m w).balance_history = m.balance_history ++ [(step m w).balance] := by
  cases w <;> rfl

theorem step_balance_win (m : Martingale) :
    (step m true).balance = m.balance - m.current_bet + 2 * m.current_bet := rfl

theorem step_bet_win (m : Martingale) :
    (step m true).current_bet = m.initial_bet := rfl

theorem step_balance_loss (m : Martingale) :
    (step m false).balance = m.balance - m.current_bet := rfl

theorem step_bet_loss (m : Martingale) :
    (step m false).current_bet = m.current_bet * 2 := rfl

@[simp] theorem iter_zero (m : Martingale) (outs : ℕ → Bool) : iter m outs 0 = m := rfl

theorem iter_succ (m : Martingale) (outs : ℕ → Bool) (n : ℕ) :
    iter m outs (n + 1) =
      if guardB (iter m outs n) then step (iter m outs n) (outs n) else iter m outs n := rfl

theorem iter_succ_of_guard {m : Martingale} {outs : ℕ → Bool} {n : ℕ}
    (h : guardB (iter m outs n) = true) :
    iter m outs (n + 1) = step (iter m outs n) (outs n) := by
  rw [iter_succ, if_pos h]

theorem iter_succ_of_stopped {m : Martingale} {outs : ℕ → Bool} {n : ℕ}
    (h : guardB (iter m outs n) = false) :
    iter m outs (n + 1) = iter m outs n := by
  rw [iter_succ, if_neg (by simp [h])]

theorem iter_add_of_stopped {m : Martingale} {outs : ℕ → Bool} {n : ℕ}
    (h : guardB (iter m outs n) = false) :
    ∀ k, iter m outs (n + k) = iter m outs n := by
  intro k
  induction k with
  | zero => rfl
  | succ k ih =>
    have hk : guardB (iter m outs (n + k)) = false := by rw [ih]; exact h
    calc iter m outs (n + (k + 1)) = iter m outs ((n + k) + 1) := by ring_nf
      _ = iter m outs (n + k) := iter_succ_of_stopped hk
      _ = iter m outs n := ih

@[simp] theorem iter_initial_balance (m : Martingale) (outs : ℕ → Bool) (n : ℕ) :
    (iter m outs n).initial_balance = m.initial_balance := by
  induction n with
  | zero => rfl
  | succ n ih => rw [iter_succ]; split <;> simp [ih]

@[simp] theorem iter_initial_bet (m : Martingale) (outs : ℕ → Bool) (n : ℕ) :
    (iter m outs n).initial_bet = m.initial_bet := by
  induction n with
  | zero => rfl
  | succ n ih => rw [iter_succ]; split <;> simp [ih]

@[simp] theorem iter_win_prob (m : Martingale) (outs : ℕ → Bool) (n : ℕ) :
    (iter m outs n).win_prob = m.win_prob := by
  induction n with
  | zero => rfl
  | succ n ih => rw [iter_succ]; split <;> simp [ih]

@[simp] theorem iter_table_limit (m : Martingale) (outs : ℕ → Bool) (n : ℕ) :
    (iter m outs n).table_limit = m.table_limit := by
  induction n with
  | zero => rfl
  | succ n ih => rw [iter_succ]; split <;> simp [ih]

@[simp] theorem initMartingale_initial_balance (ib bet wp tl : ℚ) :
    (initMartingale ib bet wp tl).initial_balance = ib := rfl

@[simp] theorem initMartingale_initial_bet (ib bet wp tl : ℚ) :
    (initMartingale ib bet wp tl).initial_bet = bet := rfl

@[simp] theorem initMartingale_win_prob (ib bet wp tl : ℚ) :
    (initMartingale ib bet wp tl).win_prob = wp := rfl

@[simp] theorem initMartingale_table_limit (ib bet wp tl : ℚ) :
    (initMartingale ib bet wp tl).table_limit = tl := rfl

@[simp] theorem initMartingale_balance (ib bet wp tl : ℚ) :
    (initMartingale ib bet wp tl).balance = ib := rfl

@[simp] theorem initMartingale_current_bet (ib bet wp tl : ℚ) :
    (initMartingale ib bet wp tl).current_bet = bet := rfl

@[simp] theorem initMartingale_balance_history (ib bet wp tl : ℚ) :
    (initMartingale ib bet wp tl).balance_history = [ib] := rfl

@[simp] theorem initMartingale_rounds_played (ib bet wp tl : ℚ) :
    (initMartingale ib bet wp tl).rounds_played = 0 := rfl

/-! ### The history invariant -/

theorem histInv_init (ib bet wp tl : ℚ) : histInv (initMartingale ib bet wp tl) := by
  constructor <;> rfl

theorem histInv_reset (m : Martingale) : histInv (Martingale.reset m) := by
  constructor <;> rfl

theorem histInv_step {m : Martingale} (h : histInv m) (w : Bool) : histInv (step m w) := by
  obtain ⟨hlen, hhead⟩ := h
  obtain ⟨a, t, hat⟩ : ∃ a t, m.balance_history = a :: t := by
    cases hm : m.balance_history with
    | nil => rw [hm] at hhead; simp at hhead
    | cons a t => exact ⟨a, t, rfl⟩
  constructor
  · rw [step_balance_history, List.length_append, hlen, step_rounds_played]
    simp
  · rw [step_balance_history, hat]
    rw [hat] at hhead
    simpa using hhead

theorem histInv_iter {m : Martingale} (h : histInv m) (outs : ℕ → Bool) (n : ℕ) :
    histInv (iter m outs n) := by
  induction n with
  | zero => exact h
  | succ n ih =>
    rw [iter_succ]
    split
    · exact histInv_step ih (outs n)
    · exact ih

/-- When every round before `n` actually executed, the history after `n`
rounds has exactly `n + 1` entries and its last entry is the current
balance. -/
theorem iter_hist_len_last (ib bet wp tl : ℚ) (outs : ℕ → Bool) (n : ℕ)
    (hg : ∀ j, j < n → guardB (iter (initMartingale ib bet wp tl) outs j) = true) :
    (iter (initMartingale ib bet wp tl) outs n).balance_history.length = n + 1 ∧
      (iter (initMartingale ib bet wp tl) outs n).balance_history.getD n 0 =
        (iter (initMartingale ib bet wp tl) outs n).balance := by
  induction n with
  | zero => constructor <;> rfl
  | succ n ih =>
    have hgn : guardB (iter (initMartingale ib bet wp tl) outs n) = true :=
      hg n (Nat.lt_succ_self n)
    obtain ⟨hlen, _⟩ := ih fun j hj => hg j (hj.trans (Nat.lt_succ_self n))
    rw [iter_succ_of_guard hgn, step_balance_history]
    refine ⟨by rw [List.length_append, hlen]; simp, ?_⟩
    rw [List.getD_append_right _ _ _ _ (by rw [hlen])]
    rw [hlen]
    simp

/-- The bet is always the initial bet times a power of two. -/
theorem iter_bet_pow (ib bet wp tl : ℚ) (outs : ℕ → Bool) (n : ℕ) :
    ∃ s : ℕ, (iter (initMartingale ib bet wp tl) outs n).current_bet = bet * 2 ^ s := by
  induction n with
  | zero => exact ⟨0, by simp⟩
  | succ n ih =>
    obtain ⟨s, hs⟩ := ih
    rw [iter_succ]
    split
    · cases h : outs n
      · rw [step_bet_loss, hs]
        exact ⟨s + 1, by ring⟩
      · rw [step_bet_win, iter_initial_bet]
        exact ⟨0, by simp⟩
    · exact ⟨s, hs⟩

/-- While the guard keeps holding and every round is lost, the bet
doubles each round. -/
theorem iter_bet_double_of_losses (m : Martingale) (outs : ℕ → Bool) (n k : ℕ)
    (hg : ∀ j, j < n + k → guardB (iter m outs j) = true)
    (hl : ∀ i, i < k → outs (n + i) = false) :
    (iter m outs (n + k)).current_bet = (iter m outs n).current_bet * 2 ^ k := by
  induction k with
  | zero => simp
  | succ k ih =>
    have hstep : iter m outs (n + k + 1) = step (iter m outs (n + k)) (outs (n + k)) :=
      iter_succ_of_guard (hg (n + k) (by omega))
    have hout : outs (n + k) = false := hl k (Nat.lt_succ_self k)
    have ihk := ih (fun j hj => hg j (by omega)) (fun i hi => hl i (by omega))
    calc (iter m outs (n + (k + 1))).current_bet
        = (step (iter m outs (n + k)) (outs (n + k))).current_bet := by
          rw [← hstep]; ring_nf
      _ = (iter m outs (n + k)).current_bet * 2 := by rw [hout, step_bet_loss]
      _ = (iter m outs n).current_bet * 2 ^ (k + 1) := by rw [ihk]; ring

/-! ### Claim theorems -/

/-- C1: in every executed round the transition is: stake the bet, then on
a win return twice the bet and reset the bet while on a loss double the
bet, then append the post-transition balance and bump the round counter;
hence each history entry differs from the previous one by exactly the
staked bet, added on a win and subtracted on a loss. -/
theorem C1_round_transition (ib bet wp tl : ℚ) (outs : ℕ → Bool) (n : ℕ)
    (hg : ∀ j, j ≤ n → guardB (traj ib bet wp tl outs j) = true) :
    traj ib bet wp tl outs (n + 1) = step (traj ib bet wp tl outs n) (outs n) ∧
    (outs n = true →
      (traj ib bet wp tl outs (n + 1)).balance =
          (traj ib bet wp tl outs n).balance - (traj ib bet wp tl outs n).current_bet
            + 2 * (traj ib bet wp tl outs n).current_bet ∧
        (traj ib bet wp tl outs (n + 1)).current_bet = bet) ∧
    (outs n = false →
      (traj ib bet wp tl outs (n + 1)).balance =
          (traj ib bet wp tl outs n).balance - (traj ib bet wp tl outs n).current_bet ∧
        (traj ib bet wp tl outs (n + 1)).current_bet =
          (traj ib bet wp tl outs n).current_bet * 2) ∧
    (traj ib bet wp tl outs (n + 1)).balance_history =
        (traj ib bet wp tl outs n).balance_history ++
          [(traj ib bet wp tl outs (n + 1)).balance] ∧
    (traj ib bet wp tl outs (n + 1)).rounds_played =
        (traj ib bet wp tl outs n).rounds_played + 1 ∧
    (traj ib bet wp tl outs (n + 1)).balance_history.getD (n + 1) 0 =
      (traj ib bet wp tl outs n).balance_history.getD n 0 +
        (if outs n = true then (traj ib bet wp tl outs n).current_bet
          else -(traj ib bet wp tl outs n).current_bet) := by
  simp only [traj] at hg ⊢
  have hstep := iter_succ_of_guard (hg n le_rfl)
  obtain ⟨hlen, hlast⟩ :=
    iter_hist_len_last ib bet wp tl outs n fun j hj => hg j (le_of_lt hj)
  refine ⟨hstep, ?_, ?_, ?_, ?_, ?_⟩
  · intro hw
    rw [hstep, hw]
    exact ⟨step_balance_win _, by rw [step_bet_win, iter_initial_bet]; rfl⟩
  · intro hw
    rw [hstep, hw]
    exact ⟨step_balance_loss _, step_bet_loss _⟩
  · rw [hstep]
    exact step_balance_history _ _
  · rw [hstep, step_rounds_played]
  · rw [hstep, step_balance_history, List.getD_append_right _ _ _ _ (by rw [hlen]),
      hlen, Nat.sub_self]
    cases hw : outs n
    · simp only [hw, Bool.false_eq_true, if_false, List.getD_cons_zero]
      rw [step_balance_loss, hlast]
      ring
    · simp only [hw, if_true, List.getD_cons_zero]
      rw [step_balance_win, hlast]
      ring

/-- C1 witness: the transition properties at a concrete first round. -/
theorem C1_round_transition_witness :
    (∀ j, j ≤ 0 → guardB (traj 100 1 (1/2) 8 (fun _ => false) j) = true) ∧
    (traj 100 1 (1/2) 8 (fun _ => false) (0 + 1) =
        step (traj 100 1 (1/2) 8 (fun _ => false) 0) false ∧
      (false = true →
        (traj 100 1 (1/2) 8 (fun _ => false) (0 + 1)).balance =
            (traj 100 1 (1/2) 8 (fun _ => false) 0).balance
              - (traj 100 1 (1/2) 8 (fun _ => false) 0).current_bet
              + 2 * (traj 100 1 (1/2) 8 (fun _ => false) 0).current_bet ∧
          (traj 100 1 (1/2) 8 (fun _ => false) (0 + 1)).current_bet = 1) ∧
      (false = false →
        (traj 100 1 (1/2) 8 (fun _ => false) (0 + 1)).balance =
            (traj 100 1 (1/2) 8 (fun _ => false) 0).balance
              - (traj 100 1 (1/2) 8 (fun _ => false) 0).current_bet ∧
          (traj 100 1 (1/2) 8 (fun _ => false) (0 + 1)).current_bet =
            (traj 100 1 (1/2) 8 (fun _ => false) 0).current_bet * 2) ∧
      (traj 100 1 (1/2) 8 (fun _ => false) (0 + 1)).balance_history =
          (traj 100 1 (1/2) 8 (fun _ => false) 0).balance_history ++
            [(traj 100 1 (1/2) 8 (fun _ => false) (0 + 1)).balance] ∧
      (traj 100 1 (1/2) 8 (fun _ => false) (0 + 1)).rounds_played =
          (traj 100 1 (1/2) 8 (fun _ => false) 0).rounds_played + 1 ∧
      (traj 100 1 (1/2) 8 (fun _ => false) (0 + 1)).balance_history.getD (0 + 1) 0 =
        (traj 100 1 (1/2) 8 (fun _ => false) 0).balance_history.getD 0 0 +
          (if false = true then (traj 100 1 (1/2) 8 (fun _ => false) 0).current_bet
            else -(traj 100 1 (1/2) 8 (fun _ => false) 0).current_bet)) := by
  have hg : ∀ j, j ≤ 0 → guardB (traj 100 1 (1/2) 8 (fun _ => false) j) = true := by
    intro j hj
    have hj0 : j = 0 := Nat.le_zero.mp hj
    subst hj0
    with_unfolding_all rfl
  exact ⟨hg, C1_round_transition 100 1 (1/2) 8 (fun _ => false) 0 hg⟩

/-- A process that cannot afford its very first bet halts at once
(used to instantiate termination hypotheses concretely). -/
theorem halts_poor : Halts (initMartingale 1 2 (1/2) 2) (fun _ => true) :=
  ⟨0, by with_unfolding_all rfl⟩

/-- C2: the loop body executes exactly when the guard
`balance >= currentBet and tableLimit >= currentBet` holds before the
round; once the guard fails the state never changes again; the returned
state is the one at the first guard failure, every earlier guard check
succeeded, and the final state violates the guard. -/
theorem C2_guard_sole_stop (m : Martingale) (outs : ℕ → Bool) (n k : ℕ)
    (h : Halts m outs) :
    (guardB (iter m outs n) = true →
        iter m outs (n + 1) = step (iter m outs n) (outs n)) ∧
    (guardB (iter m outs n) = false → iter m outs (n + k) = iter m outs n) ∧
    simResult m outs h = iter m outs (stopTime m outs h) ∧
    (∀ j, j < stopTime m outs h → guardB (iter m outs j) = true) ∧
    ((simResult m outs h).balance < (simResult m outs h).current_bet ∨
      (simResult m outs h).table_limit < (simResult m outs h).current_bet) := by
  refine ⟨fun hg => iter_succ_of_guard hg, fun hg => iter_add_of_stopped hg k, rfl, ?_, ?_⟩
  · intro j hj
    simp only [stopTime] at hj
    have hne := Nat.find_min h hj
    cases hb : guardB (iter m outs j)
    · exact absurd hb hne
    · rfl
  · have hspec : guardB (iter m outs (Nat.find h)) = false := Nat.find_spec h
    simp only [simResult, stopTime]
    exact (guardB_eq_false_iff _).mp hspec

/-- C2 witness: a process with balance 1 and bet 2 stops immediately. -/
theorem C2_guard_sole_stop_witness :
    Halts (initMartingale 1 2 (1/2) 2) (fun _ => true) ∧
    ((guardB (iter (initMartingale 1 2 (1/2) 2) (fun _ => true) 0) = true →
        iter (initMartingale 1 2 (1/2) 2) (fun _ => true) (0 + 1) =
          step (iter (initMartingale 1 2 (1/2) 2) (fun _ => true) 0) true) ∧
      (guardB (iter (initMartingale 1 2 (1/2) 2) (fun _ => true) 0) = false →
        iter (initMartingale 1 2 (1/2) 2) (fun _ => true) (0 + 3) =
          iter (initMartingale 1 2 (1/2) 2) (fun _ => true) 0) ∧
      simResult (initMartingale 1 2 (1/2) 2) (fun _ => true) halts_poor =
        iter (initMartingale 1 2 (1/2) 2) (fun _ => true)
          (stopTime (initMartingale 1 2 (1/2) 2) (fun _ => true) halts_poor) ∧
      (∀ j, j < stopTime (initMartingale 1 2 (1/2) 2) (fun _ => true) halts_poor →
        guardB (iter (initMartingale 1 2 (1/2) 2) (fun _ => true) j) = true) ∧
      ((simResult (initMartingale 1 2 (1/2) 2) (fun _ => true) halts_poor).balance <
          (simResult (initMartingale 1 2 (1/2) 2) (fun _ => true) halts_poor).current_bet ∨
        (simResult (initMartingale 1 2 (1/2) 2) (fun _ => true) halts_poor).table_limit <
          (simResult (initMartingale 1 2 (1/2) 2) (fun _ => true) halts_poor).current_bet)) :=
  ⟨halts_poor, C2_guard_sole_stop (initMartingale 1 2 (1/2) 2) (fun _ => true) 0 3 halts_poor⟩

/-- C4: the invariant `len(balanceHistory) == roundsPlayed + 1` and
`balanceHistory[0] == initialBalance` holds after construction, after
every `reset()`, and is preserved by the round loop. -/
theorem C4_history_invariant (ib bet wp tl : ℚ) (m : Martingale) (w : Bool)
    (outs : ℕ → Bool) (n : ℕ) :
    histInv (initMartingale ib bet wp tl) ∧
    histInv (Martingale.reset m) ∧
    (histInv m → histInv (step m w) ∧ histInv (iter m outs n)) :=
  ⟨histInv_init ib bet wp tl, histInv_reset m,
    fun h => ⟨histInv_step h w, histInv_iter h outs n⟩⟩

/-- C4 witness: the invariant at a concrete process, stepped and run. -/
theorem C4_history_invariant_witness :
    histInv (initMartingale 5 1 (1/2) 3) ∧
    histInv (step (initMartingale 5 1 (1/2) 3) true) ∧
    histInv (iter (initMartingale 5 1 (1/2) 3) (fun _ => false) 2) := by
  have h := C4_history_invariant 5 1 (1/2) 3 (initMartingale 5 1 (1/2) 3) true
    (fun _ => false) 2
  exact ⟨h.1, (h.2.2 h.1).1, (h.2.2 h.1).2⟩

/-- C6: `reset()` restores all four mutable fields from the construction
parameters regardless of the prior state, and is idempotent. -/
theorem C6_reset_idempotent (m : Martingale) :
    (Martingale.reset m).balance = m.initial_balance ∧
    (Martingale.reset m).current_bet = m.initial_bet ∧
    (Martingale.reset m).balance_history = [m.initial_balance] ∧
    (Martingale.reset m).rounds_played = 0 ∧
    Martingale.reset (Martingale.reset m) = Martingale.reset m :=
  ⟨rfl, rfl, rfl, rfl, rfl⟩

/-- C5: at the start of every executed round the bet equals
`initialBet * 2 ^ k`, where `k` counts the consecutive losses since the
last win or the start of the run. -/
theorem C5_bet_is_doubled_initial (ib bet wp tl : ℚ) (outs : ℕ → Bool) (n : ℕ)
    (hg : ∀ j, j < n → guardB (traj ib bet wp tl outs j) = true) :
    (traj ib bet wp tl outs n).current_bet = bet * 2 ^ lossStreak outs n := by
  simp only [traj] at hg ⊢
  induction n with
  | zero => simp [lossStreak]
  | succ n ih =>
    have hgn := hg n (Nat.lt_succ_self n)
    have ihn := ih fun j hj => hg j (hj.trans (Nat.lt_succ_self n))
    rw [iter_succ_of_guard hgn]
    cases hw : outs n
    · rw [step_bet_loss, ihn]
      simp only [lossStreak, hw, Bool.false_eq_true, if_false]
      ring
    · rw [step_bet_win, iter_initial_bet, initMartingale_initial_bet]
      simp [lossStreak, hw]

/-- C5 witness: after two opening losses the bet is `1 * 2 ^ 2`. -/
theorem C5_bet_is_doubled_initial_witness :
    (∀ j, j < 2 → guardB (traj 100 1 (1/2) 8 (fun _ => false) j) = true) ∧
    (traj 100 1 (1/2) 8 (fun _ => false) 2).current_bet =
      1 * 2 ^ lossStreak (fun _ => false) 2 := by
  have hg : ∀ j, j < 2 → guardB (traj 100 1 (1/2) 8 (fun _ => false) j) = true := by
    intro j hj
    interval_cases j
    · with_unfolding_all rfl
    · with_unfolding_all rfl
  exact ⟨hg, C5_bet_is_doubled_initial 100 1 (1/2) 8 (fun _ => false) 2 hg⟩

/-- On an all-win stream from the concrete parameters
`(100, 1, 18/37, 8)`, the bet stays `1` and the balance grows by `1`
each round, so the guard never fails. -/
theorem allwins_state (n : ℕ) :
    (traj 100 1 (18/37) 8 (fun _ => true) n).current_bet = 1 ∧
      (traj 100 1 (18/37) 8 (fun _ => true) n).balance = 100 + n := by
  simp only [traj]
  induction n with
  | zero => exact ⟨rfl, by simp⟩
  | succ n ih =>
    obtain ⟨hbet, hbal⟩ := ih
    have hn : (0 : ℚ) ≤ n := Nat.cast_nonneg n
    have hguard : guardB (iter (initMartingale 100 1 (18/37) 8) (fun _ => true) n) = true := by
      rw [guardB_eq_true_iff, hbet, hbal]
      constructor
      · linarith
      · rw [iter_table_limit, initMartingale_table_limit]
        norm_num
    rw [iter_succ_of_guard hguard]
    refine ⟨by rw [step_bet_win, iter_initial_bet]; rfl, ?_⟩
    rw [step_balance_win, hbal, hbet]
    push_cast
    ring

/-- C3 counterexample: the claim quantifies over every win/loss sequence,
but on the all-win sequence the process with parameters
`(100, 1, 18/37, 8)` never halts. -/
theorem C3_counterexample :
    ¬ Halts (initMartingale 100 1 (18/37) 8) (fun _ => true) := by
  rintro ⟨n, hn⟩
  obtain ⟨hbet, hbal⟩ := allwins_state n
  simp only [traj] at hbet hbal
  rw [guardB_eq_false_iff, hbet, hbal] at hn
  have hn0 : (0 : ℚ) ≤ n := Nat.cast_nonneg n
  rcases hn with h | h
  · linarith
  · rw [iter_table_limit, initMartingale_table_limit] at h
    norm_num at h

/-- C3 (amended): the run need not halt for every outcome sequence, but
it does halt within a bounded window once the sequence offers enough
consecutive losses: if `initialBet > 0`, `initialBet * 2 ^ k` exceeds
`tableLimit`, and rounds `n, …, n + k - 1` all come out losses, then the
guard has failed by round `n + k`. -/
theorem C3_halts_on_long_losing_streak (ib bet wp tl : ℚ) (outs : ℕ → Bool) (n k : ℕ)
    (hbet : 0 < bet) (hk : tl < bet * 2 ^ k)
    (hl : ∀ i, i < k → outs (n + i) = false) :
    ∃ j, j ≤ n + k ∧ guardB (traj ib bet wp tl outs j) = false := by
  simp only [traj]
  by_contra hcon
  push_neg at hcon
  have hg : ∀ j, j ≤ n + k → guardB (iter (initMartingale ib bet wp tl) outs j) = true := by
    intro j hj
    cases hb : guardB (iter (initMartingale ib bet wp tl) outs j)
    · exact absurd hb (hcon j hj)
    · rfl
  obtain ⟨s, hs⟩ := iter_bet_pow ib bet wp tl outs n
  have hdouble := iter_bet_double_of_losses (initMartingale ib bet wp tl) outs n k
    (fun j hj => hg j (le_of_lt hj)) hl
  have hgnk := ((guardB_eq_true_iff _).mp (hg (n + k) le_rfl)).2
  rw [iter_table_limit, initMartingale_table_limit, hdouble, hs] at hgnk
  have h1 : (1 : ℚ) ≤ 2 ^ s := one_le_pow₀ (by norm_num)
  have h2 : (0 : ℚ) < 2 ^ k := by positivity
  nlinarith [mul_le_mul_of_nonneg_right h1 (mul_pos hbet h2).le]

/-- C3 witness: with bet `1` and table limit `8`, four opening losses
force the guard to fail within four rounds. -/
theorem C3_halts_on_long_losing_streak_witness :
    ((0 : ℚ) < 1 ∧ (8 : ℚ) < 1 * 2 ^ 4 ∧
      (∀ i, i < 4 → (fun (_ : ℕ) => false) (0 + i) = false)) ∧
    ∃ j, j ≤ 0 + 4 ∧ guardB (traj 100 1 (18/37) 8 (fun _ => false) j) = false := by
  refine ⟨⟨by norm_num, by norm_num, fun i _ => rfl⟩, ?_⟩
  exact C3_halts_on_long_losing_streak 100 1 (18/37) 8 (fun _ => false) 0 4
    (by norm_num) (by norm_num) (fun i _ => rfl)

/-- With nonnegative starting capital and base bet, the whole state stays
nonnegative along the run: the guard is checked before each stake. -/
theorem iter_nonneg (ib bet wp tl : ℚ) (outs : ℕ → Bool) (n : ℕ)
    (hib : 0 ≤ ib) (hbet : 0 ≤ bet) :
    0 ≤ (iter (initMartingale ib bet wp tl) outs n).balance ∧
      0 ≤ (iter (initMartingale ib bet wp tl) outs n).current_bet ∧
      ∀ x ∈ (iter (initMartingale ib bet wp tl) outs n).balance_history, 0 ≤ x := by
  induction n with
  | zero =>
    refine ⟨hib, hbet, ?_⟩
    intro x hx
    simp only [iter_zero, initMartingale_balance_history, List.mem_singleton] at hx
    exact hx ▸ hib
  | succ n ih =>
    obtain ⟨hbal, hcb, hhist⟩ := ih
    rw [iter_succ]
    split
    case isTrue hguard =>
      have hgd := (guardB_eq_true_iff _).mp hguard
      have hstake : 0 ≤ (iter (initMartingale ib bet wp tl) outs n).balance -
          (iter (initMartingale ib bet wp tl) outs n).current_bet := by
        linarith [hgd.1]
      have hnewbal : 0 ≤ (step (iter (initMartingale ib bet wp tl) outs n) (outs n)).balance := by
        cases hw : outs n
        · rw [step_balance_loss]
          exact hstake
        · rw [step_balance_win]
          linarith
      refine ⟨hnewbal, ?_, ?_⟩
      · cases hw : outs n
        · rw [step_bet_loss]
          linarith
        · rw [step_bet_win, iter_initial_bet, initMartingale_initial_bet]
          exact hbet
      · intro x hx
        rw [step_balance_history, List.mem_append, List.mem_singleton] at hx
        rcases hx with hx | hx
        · exact hhist x hx
        · exact hx ▸ hnewbal
    case isFalse => exact ⟨hbal, hcb, hhist⟩

/-- C9: for nonnegative construction parameters the balance never goes
negative: every entry of the history is nonnegative, because the guard
keeps the stake within the balance and a win only adds money. -/
theorem C9_history_nonneg (ib bet wp tl : ℚ) (outs : ℕ → Bool) (n : ℕ)
    (hib : 0 ≤ ib) (hbet : 0 ≤ bet) :
    0 ≤ (traj ib bet wp tl outs n).balance ∧
      ∀ x ∈ (traj ib bet wp tl outs n).balance_history, 0 ≤ x := by
  simp only [traj]
  obtain ⟨h1, _, h3⟩ := iter_nonneg ib bet wp tl outs n hib hbet
  exact ⟨h1, h3⟩

/-- C9 witness: nonnegativity along a concrete losing run. -/
theorem C9_history_nonneg_witness :
    ((0 : ℚ) ≤ 100 ∧ (0 : ℚ) ≤ 1) ∧
    (0 ≤ (traj 100 1 (1/2) 8 (fun _ => false) 4).balance ∧
      ∀ x ∈ (traj 100 1 (1/2) 8 (fun _ => false) 4).balance_history, 0 ≤ x) := by
  refine ⟨⟨by norm_num, by norm_num⟩, ?_⟩
  exact C9_history_nonneg 100 1 (1/2) 8 (fun _ => false) 4 (by norm_num) (by norm_num)

/-- C10: if the fresh process cannot afford its first bet (or the table
refuses it), `simulate()` returns at once with zero rounds played and
history `[initialBalance]`; and the history of any run always keeps at
least one entry. -/
theorem C10_immediate_return (ib bet wp tl : ℚ) (outs : ℕ → Bool) (n : ℕ) :
    (ib < bet ∨ tl < bet →
      Halts (initMartingale ib bet wp tl) outs ∧
      ∀ h : Halts (initMartingale ib bet wp tl) outs,
        simResult (initMartingale ib bet wp tl) outs h = initMartingale ib bet wp tl ∧
        (simResult (initMartingale ib bet wp tl) outs h).rounds_played = 0 ∧
        (simResult (initMartingale ib bet wp tl) outs h).balance_history = [ib]) ∧
    1 ≤ (traj ib bet wp tl outs n).balance_history.length := by
  constructor
  · intro hdeg
    have h0 : guardB (initMartingale ib bet wp tl) = false := by
      rw [guardB_eq_false_iff]
      simpa using hdeg
    refine ⟨⟨0, h0⟩, ?_⟩
    intro h
    have hfind : Nat.find h = 0 := (Nat.find_eq_zero h).mpr h0
    have hres : simResult (initMartingale ib bet wp tl) outs h =
        initMartingale ib bet wp tl := by
      simp only [simResult, stopTime, hfind, iter_zero]
    refine ⟨hres, ?_, ?_⟩
    · rw [hres]
      rfl
    · rw [hres]
      rfl
  · have hinv := histInv_iter (histInv_init ib bet wp tl) outs n
    simp only [traj]
    rw [hinv.1]
    omega

/-- C10 witness: balance `1` cannot afford the first bet of `2`. -/
theorem C10_immediate_return_witness :
    ((1 : ℚ) < 2 ∨ (2 : ℚ) < 2) ∧
    ((Halts (initMartingale 1 2 (1/2) 2) (fun _ => true) ∧
      ∀ h : Halts (initMartingale 1 2 (1/2) 2) (fun _ => true),
        simResult (initMartingale 1 2 (1/2) 2) (fun _ => true) h =
            initMartingale 1 2 (1/2) 2 ∧
        (simResult (initMartingale 1 2 (1/2) 2) (fun _ => true) h).rounds_played = 0 ∧
        (simResult (initMartingale 1 2 (1/2) 2) (fun _ => true) h).balance_history = [1]) ∧
      1 ≤ (traj 1 2 (1/2) 2 (fun _ => true) 5).balance_history.length) := by
  have hdeg : (1 : ℚ) < 2 ∨ (2 : ℚ) < 2 := Or.inl (by norm_num)
  have h := C10_immediate_return 1 2 (1/2) 2 (fun _ => true) 5
  exact ⟨hdeg, ⟨h.1 hdeg, h.2⟩⟩

/-- Each process of a concrete degenerate ensemble (balance 1, bet 2)
halts at once (used to instantiate the ensemble driver concretely). -/
theorem halts_family_poor :
    ∀ i : ℕ, Halts (initMartingale 1 2 (1/2) 2) ((fun (_ : ℕ) (_ : ℕ) => true) i) :=
  fun _ => ⟨0, by with_unfolding_all rfl⟩

/-- C7: the ensemble driver returns exactly `sim_count` processes, in
construction order, each built from the same four parameters and each
run to completion (its guard has failed). -/
theorem C7_run_simulations_spec (ib bet wp tl : ℚ) (outsFam : ℕ → ℕ → Bool)
    (sim_count : ℕ) (_hpos : 0 < sim_count)
    (h : ∀ i, Halts (initMartingale ib bet wp tl) (outsFam i)) :
    (run_simulations ib bet wp tl outsFam sim_count h).length = sim_count ∧
    ∀ i, i < sim_count →
      (run_simulations ib bet wp tl outsFam sim_count h).getD i
          (initMartingale ib bet wp tl) =
        simResult (initMartingale ib bet wp tl) (outsFam i) (h i) ∧
      guardB ((run_simulations ib bet wp tl outsFam sim_count h).getD i
          (initMartingale ib bet wp tl)) = false ∧
      ((run_simulations ib bet wp tl outsFam sim_count h).getD i
          (initMartingale ib bet wp tl)).initial_balance = ib ∧
      ((run_simulations ib bet wp tl outsFam sim_count h).getD i
          (initMartingale ib bet wp tl)).initial_bet = bet ∧
      ((run_simulations ib bet wp tl outsFam sim_count h).getD i
          (initMartingale ib bet wp tl)).win_prob = wp ∧
      ((run_simulations ib bet wp tl outsFam sim_count h).getD i
          (initMartingale ib bet wp tl)).table_limit = tl := by
  have hlen : (run_simulations ib bet wp tl outsFam sim_count h).length = sim_count := by
    simp [run_simulations]
  refine ⟨hlen, ?_⟩
  intro i hi
  have hget : (run_simulations ib bet wp tl outsFam sim_count h).getD i
      (initMartingale ib bet wp tl) =
        simResult (initMartingale ib bet wp tl) (outsFam i) (h i) := by
    rw [List.getD_eq_getElem?_getD]
    simp [run_simulations, List.getElem?_map, List.getElem?_range hi]
  have hstop : guardB (simResult (initMartingale ib bet wp tl) (outsFam i) (h i)) = false :=
    Nat.find_spec (h i)
  refine ⟨hget, ?_, ?_, ?_, ?_, ?_⟩ <;> rw [hget]
  · exact hstop
  · simp [simResult]
  · simp [simResult]
  · simp [simResult]
  · simp [simResult]

/-- C7 witness: an ensemble of two degenerate processes. -/
theorem C7_run_simulations_spec_witness :
    0 < 2 ∧
    ((run_simulations 1 2 (1/2) 2 (fun _ _ => true) 2 halts_family_poor).length = 2 ∧
      ∀ i, i < 2 →
        (run_simulations 1 2 (1/2) 2 (fun _ _ => true) 2 halts_family_poor).getD i
            (initMartingale 1 2 (1/2) 2) =
          simResult (initMartingale 1 2 (1/2) 2) (fun _ => true)
            (halts_family_poor i) ∧
        guardB ((run_simulations 1 2 (1/2) 2 (fun _ _ => true) 2
            halts_family_poor).getD i (initMartingale 1 2 (1/2) 2)) = false ∧
        ((run_simulations 1 2 (1/2) 2 (fun _ _ => true) 2 halts_family_poor).getD i
            (initMartingale 1 2 (1/2) 2)).initial_balance = 1 ∧
        ((run_simulations 1 2 (1/2) 2 (fun _ _ => true) 2 halts_family_poor).getD i
            (initMartingale 1 2 (1/2) 2)).initial_bet = 2 ∧
        ((run_simulations 1 2 (1/2) 2 (fun _ _ => true) 2 halts_family_poor).getD i
            (initMartingale 1 2 (1/2) 2)).win_prob = 1/2 ∧
        ((run_simulations 1 2 (1/2) 2 (fun _ _ => true) 2 halts_family_poor).getD i
            (initMartingale 1 2 (1/2) 2)).table_limit = 2) :=
  ⟨by norm_num,
    C7_run_simulations_spec 1 2 (1/2) 2 (fun _ _ => true) 2 (by norm_num)
      halts_family_poor⟩

/-- C8: a round is won exactly when the fresh uniform draw for that round
is at most the win probability, and the trace driven by draws resolves
each executed round through exactly that boolean trial. -/
theorem C8_trial_spec (wp d : ℚ) (_h0 : 0 < wp) (_h1 : wp < 1) (m : Martingale)
    (draws : ℕ → ℚ) (n : ℕ) :
    (trial wp d = true ↔ d ≤ wp) ∧
    iterDraws m draws (n + 1) =
      (if guardB (iterDraws m draws n) = true
        then step (iterDraws m draws n) (trial m.win_prob (draws n))
        else iterDraws m draws n) := by
  refine ⟨by simp [trial], ?_⟩
  simp only [iterDraws]
  rw [iter_succ]

/-- C8 witness: a concrete draw below the win probability wins. -/
theorem C8_trial_spec_witness :
    ((0 : ℚ) < 1/2 ∧ (1/2 : ℚ) < 1) ∧
    ((trial (1/2) (1/4) = true ↔ (1/4 : ℚ) ≤ 1/2) ∧
      iterDraws (initMartingale 100 1 (1/2) 8) (fun _ => 0) (0 + 1) =
        (if guardB (iterDraws (initMartingale 100 1 (1/2) 8) (fun _ => 0) 0) = true
          then step (iterDraws (initMartingale 100 1 (1/2) 8) (fun _ => 0) 0)
            (trial (initMartingale 100 1 (1/2) 8).win_prob ((fun _ => (0 : ℚ)) 0))
          else iterDraws (initMartingale 100 1 (1/2) 8) (fun _ => 0) 0)) := by
  refine ⟨⟨by norm_num, by norm_num⟩, ?_⟩
  exact C8_trial_spec (1/2) (1/4) (by norm_num) (by norm_num)
    (initMartingale 100 1 (1/2) 8) (fun _ => 0) 0
